import Mathlib

/-!
# Verification of the math-rendering pipeline of the examination portal

Shallow embedding of the string pipeline in `src/js/utils.js`:
`escapeHtml`, `convertPlainToLatexFragment` and `renderMixedText`.
Strings are modelled as `String`/`List Char`; JavaScript runtime values
passed to these functions are modelled by the inductive type `JSVal`.
JavaScript exceptions are modelled with `Except JsErr`; the only
stringification that can throw in this fragment of the language is
`String(x)` on an object whose `toString`/`valueOf` conversion throws
(for example `Object.create(null)` or an object with a throwing
`toString`), modelled by the constructor `JSVal.badObj`.  `String()`
applied to any primitive (null, undefined, booleans, numbers, strings)
never throws and is total here.

Each JavaScript regular-expression operation used by the source is
translated into an explicit scanner over `List Char`, reproducing the
leftmost-match / ordered-alternation / greedy semantics of the concrete
patterns in the source (all patterns involved are deterministic: every
greedy sub-expression is delimited by a character class that excludes
the following delimiter, so no global backtracking arises; where local
backtracking matters — the optional decimal part of the numeric-fraction
token, the `\s*` padding in the sqrt rule — it is resolved explicitly
and commented).  Scanners use explicit fuel equal to the input length
(each step consumes at least one character), keeping every definition
structurally recursive and executable.
-/

namespace ExamPortal

/-- The `{` character, written via its code point. -/
def obrace : Char := Char.ofNat 123

/-- The `}` character, written via its code point. -/
def cbrace : Char := Char.ofNat 125

/-- The `"` character, written via its code point. -/
def quoteC : Char := Char.ofNat 34

/-- The `'` character, written via its code point. -/
def aposC : Char := Char.ofNat 39

/-- JavaScript runtime errors relevant to this pipeline. -/
inductive JsErr
  | typeError
deriving DecidableEq, Repr

/-- JavaScript values that can be passed to the rendering functions.
`badObj` stands for an object whose string conversion throws a
`TypeError` (e.g. `Object.create(null)`, or `{toString(){throw e}}`);
all other constructors are primitives, whose conversion is total. -/
inductive JSVal
  | null
  | undefined
  | bool (b : Bool)
  | num (n : Int)
  | str (s : String)
  | badObj
deriving DecidableEq, BEq, Repr

/-- `String(x)`: JavaScript string conversion.  Throws exactly on an
object whose primitive conversion throws. -/
def jsToString : JSVal → Except JsErr String
  | .null => .ok "null"
  | .undefined => .ok "undefined"
  | .bool b => .ok (if b then "true" else "false")
  | .num n => .ok (toString n)
  | .str s => .ok s
  | .badObj => .error .typeError

/-- JavaScript falsiness: `null`, `undefined`, `false`, `0`, `""` are
falsy; objects are always truthy. -/
def jsFalsy : JSVal → Bool
  | .null => true
  | .undefined => true
  | .bool b => !b
  | .num n => n == 0
  | .str s => s == ""
  | .badObj => false

/-- `a || b` on JavaScript values (value-returning disjunction). -/
def jsOr (a b : JSVal) : JSVal :=
  if jsFalsy a then b else a

/-- `s.replace(/c/g, r)` for a single-character pattern `c`:
every occurrence of `c` is replaced by `r`. -/
def replCharL (c : Char) (r : List Char) : List Char → List Char
  | [] => []
  | x :: xs => (if x = c then r else [x]) ++ replCharL c r xs

/-- The body of `escapeHtml` from `src/js/utils.js` lines 33-38: five
chained global single-character replacements, ampersand first. -/
def escL (l : List Char) : List Char :=
  replCharL aposC ("&#039;".data)
    (replCharL quoteC ("&quot;".data)
      (replCharL '>' ("&gt;".data)
        (replCharL '<' ("&lt;".data)
          (replCharL '&' ("&amp;".data) l))))

/-- `escapeHtml` restricted to an argument that is already a string. -/
def escapeHtmlStr (s : String) : String := ⟨escL s.data⟩

/-- `escapeHtml` from `src/js/utils.js` lines 31-39: `undefined` and
`null` map to `""`; any other value is stringified and escaped. -/
def escapeHtml (v : JSVal) : Except JsErr String :=
  if v == JSVal.undefined || v == JSVal.null then .ok ""
  else (jsToString v).map escapeHtmlStr

/-- Modelled from the spec words for comparison: the sanitizer "escapes
the five HTML-significant characters to their entity forms", as a
single character-wise map. -/
def specEscapeChar (c : Char) : List Char :=
  if c = '&' then "&amp;".data
  else if c = '<' then "&lt;".data
  else if c = '>' then "&gt;".data
  else if c = quoteC then "&quot;".data
  else if c = aposC then "&#039;".data
  else [c]

/-- Membership in the set of five HTML-significant characters. -/
def isHtmlSpecial (c : Char) : Bool :=
  c == '&' || c == '<' || c == '>' || c == quoteC || c == aposC

/-- ASCII word character, JavaScript `\w` = `[A-Za-z0-9_]`
(used by the `\b` word boundaries in the normalizer rules). -/
def isWordC (c : Char) : Bool := c.isAlpha || c.isDigit || c == '_'

/-- Whether the character before the current scan position is a word
character (`none` = start of string). -/
def prevWord : Option Char → Bool
  | some c => isWordC c
  | none => false

/-- Whether the next unconsumed character is a word character
(`[]` = end of string). -/
def headWord : List Char → Bool
  | c :: _ => isWordC c
  | [] => false

/-- JavaScript `\s` on the characters that can occur here: space, tab,
newline, carriage return, vertical tab, form feed, no-break space. -/
def isJsSpace (c : Char) : Bool :=
  c == ' ' || c == Char.ofNat 9 || c == Char.ofNat 10 || c == Char.ofNat 13 ||
  c == Char.ofNat 11 || c == Char.ofNat 12 || c == Char.ofNat 160

/-- A normalizer rule: given the previous original character (for word
boundaries) and the remaining input, optionally return
(replacement, matched text, rest of input). -/
def RuleStep : Type :=
  Option Char → List Char → Option (List Char × List Char × List Char)

/-- One global `String.replace` scan: find successive leftmost matches
of the rule, substitute the replacement, and continue after the matched
text, as JavaScript `replace` with the `g` flag does.  Word boundaries
are evaluated against the original characters, so the previous-char
state after a match is the last character of the matched text, not of
the replacement.  Fuel is the remaining input length (every match
consumes at least one character). -/
def replScanF (f : RuleStep) : Nat → Option Char → List Char → List Char
  | 0, _, s => s
  | _ + 1, _, [] => []
  | fuel + 1, prev, c :: cs =>
    match f prev (c :: cs) with
    | some (repl, t, r) =>
      repl ++ replScanF f fuel
        (match t.getLast? with
         | some x => some x
         | none => prev) r
    | none => c :: replScanF f fuel (some c) cs

/-- Run a rule globally over the whole input. -/
def runRule (f : RuleStep) (l : List Char) : List Char :=
  replScanF f l.length none l

/-- Rule 1, `src/js/utils.js` line 62:
`/\(([^)]+)\)\/\(([^)]+)\)/g` replaced by `\frac{a}{b}`.  Each `[^)]+`
is greedy but excludes the delimiter `)`, so the match is the maximal
run of non-`)` characters followed by the literal context. -/
def ruleParenFrac : RuleStep := fun _ s =>
  match s with
  | '(' :: r1 =>
    let a := r1.takeWhile (fun c => c ≠ ')')
    if a.isEmpty then none else
    match r1.dropWhile (fun c => c ≠ ')') with
    | ')' :: '/' :: '(' :: r2 =>
      let b := r2.takeWhile (fun c => c ≠ ')')
      if b.isEmpty then none else
      match r2.dropWhile (fun c => c ≠ ')') with
      | ')' :: r3 =>
        some ('\\' :: 'f' :: 'r' :: 'a' :: 'c' :: obrace :: (a ++ cbrace :: obrace :: b ++ [cbrace]),
              '(' :: (a ++ ')' :: '/' :: '(' :: b ++ [')']), r3)
      | _ => none
    | _ => none
  | _ => none

/-- Rule 2, `src/js/utils.js` line 63:
`/\b([0-9]+)\/([0-9]+)\b/g` replaced by `\frac{a}{b}`.  The digit runs
are maximal (shrinking a greedy `[0-9]+` can never make the following
literal `/` or trailing `\b` match, since the given-back character is a
digit), so the word boundaries reduce to: previous character not a word
character, and the character after the second run not a word
character. -/
def ruleBareFrac : RuleStep := fun prev s =>
  if prevWord prev then none else
  let d1 := s.takeWhile Char.isDigit
  if d1.isEmpty then none else
  match s.dropWhile Char.isDigit with
  | '/' :: r1 =>
    let d2 := r1.takeWhile Char.isDigit
    if d2.isEmpty then none else
    let rest := r1.dropWhile Char.isDigit
    if headWord rest then none else
    some ('\\' :: 'f' :: 'r' :: 'a' :: 'c' :: obrace :: (d1 ++ cbrace :: obrace :: d2 ++ [cbrace]),
          d1 ++ '/' :: d2, rest)
  | _ => none

/-- Case-insensitive match of the four letters of `sqrt`. -/
def sqrtWord (c1 c2 c3 c4 : Char) : Bool :=
  (c1 == 's' || c1 == 'S') && (c2 == 'q' || c2 == 'Q') &&
  (c3 == 'r' || c3 == 'R') && (c4 == 't' || c4 == 'T')

/-- Rule 3, `src/js/utils.js` line 65:
`/sqrt\(\s*([^)]+)\s*\)/gi` replaced by `\sqrt{a}`.  The greedy capture
`[^)]+` runs to the closing `)`; the trailing `\s*` then matches the
empty string, so trailing whitespace stays inside the capture.  The
leading `\s*` greedily eats whitespace; only when everything before `)`
is whitespace does it backtrack by one character so that `[^)]+` can
capture that last whitespace character. -/
def ruleSqrt : RuleStep := fun _ s =>
  match s with
  | c1 :: c2 :: c3 :: c4 :: '(' :: r1 =>
    if sqrtWord c1 c2 c3 c4 then
      let inner := r1.takeWhile (fun c => c ≠ ')')
      if inner.isEmpty then none else
      match r1.dropWhile (fun c => c ≠ ')') with
      | ')' :: r2 =>
        let w := inner.takeWhile isJsSpace
        let a := if w.length = inner.length
                 then inner.drop (inner.length - 1)
                 else inner.drop w.length
        some ('\\' :: 's' :: 'q' :: 'r' :: 't' :: obrace :: (a ++ [cbrace]),
              c1 :: c2 :: c3 :: c4 :: '(' :: (inner ++ [')']), r2)
      | _ => none
    else none
  | _ => none

/-- Base character class of the exponent rule: `[A-Za-z0-9)}]`. -/
def expBase (c : Char) : Bool := c.isAlphanum || c == ')' || c == cbrace

/-- Exponent character class of the exponent rule: `[A-Za-z0-9{]`. -/
def expArg (c : Char) : Bool := c.isAlphanum || c == obrace

/-- Rule 4, `src/js/utils.js` line 67:
`/([A-Za-z0-9)}])\^([A-Za-z0-9{]+)/g` replaced by `a^{b}`. -/
def ruleExp : RuleStep := fun _ s =>
  match s with
  | a :: '^' :: r1 =>
    if expBase a then
      let b := r1.takeWhile expArg
      if b.isEmpty then none else
      some (a :: '^' :: obrace :: (b ++ [cbrace]), a :: '^' :: b, r1.dropWhile expArg)
    else none
  | _ => none

/-- Rule 5, `src/js/utils.js` line 69: `/\bpi\b/g` replaced by `\pi`. -/
def rulePi : RuleStep := fun prev s =>
  if prevWord prev then none else
  match s with
  | 'p' :: 'i' :: rest =>
    if headWord rest then none else
    some (['\\', 'p', 'i'], ['p', 'i'], rest)
  | _ => none

/-- Rule 6, `src/js/utils.js` line 70:
`/\be\b/g` replaced by `\mathrm{e}`. -/
def ruleEuler : RuleStep := fun prev s =>
  if prevWord prev then none else
  match s with
  | 'e' :: rest =>
    if headWord rest then none else
    some ('\\' :: 'm' :: 'a' :: 't' :: 'h' :: 'r' :: 'm' :: obrace :: 'e' :: [cbrace],
          ['e'], rest)
  | _ => none

/-- The six rewrites of `convertPlainToLatexFragment`, in source
order. -/
def normalizeL (l : List Char) : List Char :=
  runRule ruleEuler
    (runRule rulePi
      (runRule ruleExp
        (runRule ruleSqrt
          (runRule ruleBareFrac
            (runRule ruleParenFrac l)))))

/-- `convertPlainToLatexFragment` from `src/js/utils.js` lines 58-72.
The guard `if (!plain && plain !== 0) return \x27\x27` returns the empty
string on every falsy value except the number `0`; otherwise the value
is stringified and the six rewrites are applied. -/
def convertPlainToLatexFragment (v : JSVal) : Except JsErr String :=
  if jsFalsy v && !(v == JSVal.num 0) then .ok ""
  else (jsToString v).map fun s => ⟨normalizeL s.data⟩

/-- Concatenation of a list of character lists. -/
def listJoin (l : List (List Char)) : List Char := l.foldr (· ++ ·) []

/-- One `\{[^}]+\}` group of the token pattern: an opening brace, a
maximal nonempty run of non-`}` characters, a closing brace.  Returns
(matched text, rest). -/
def tokBraceArg (s : List Char) : Option (List Char × List Char) :=
  match s with
  | c :: r =>
    if c = obrace then
      let a := r.takeWhile (fun x => x ≠ cbrace)
      if a.isEmpty then none else
      match r.dropWhile (fun x => x ≠ cbrace) with
      | d :: r2 => if d = cbrace then some (obrace :: (a ++ [cbrace]), r2) else none
      | [] => none
    else none
  | [] => none

/-- Match a literal character sequence at the head of the input,
returning the rest on success. -/
def dropLit : List Char → List Char → Option (List Char)
  | [], s => some s
  | p :: ps, c :: cs => if c = p then dropLit ps cs else none
  | _ :: _, [] => none

/-- The five characters of the literal `\frac` (one backslash). -/
def fracLit : List Char := '\\' :: 'f' :: 'r' :: 'a' :: ['c']

/-- The five characters of the literal `\sqrt` (one backslash). -/
def sqrtLit : List Char := '\\' :: 's' :: 'q' :: 'r' :: ['t']

/-- First alternative of the token pattern of `src/js/utils.js` line 81:
`\\frac\{[^}]+\}\{[^}]+\}`. -/
def tokFrac (s : List Char) : Option (List Char × List Char) :=
  match dropLit fracLit s with
  | some rest =>
    match tokBraceArg rest with
    | some (g1, r1) =>
      match tokBraceArg r1 with
      | some (g2, r2) => some (fracLit ++ (g1 ++ g2), r2)
      | none => none
    | none => none
  | none => none

/-- Second alternative: `\\sqrt\{[^}]+\}`. -/
def tokSqrt (s : List Char) : Option (List Char × List Char) :=
  match dropLit sqrtLit s with
  | some rest =>
    match tokBraceArg rest with
    | some (g1, r1) => some (sqrtLit ++ g1, r1)
    | none => none
  | none => none

/-- Third alternative: `\\[a-zA-Z]+`, a backslash followed by a maximal
nonempty alphabetic run (an escaped macro name — not a bare alphabetic
run). -/
def tokBackslashRun (s : List Char) : Option (List Char × List Char) :=
  match dropLit ['\\'] s with
  | some rest =>
    let run := rest.takeWhile Char.isAlpha
    if run.isEmpty then none
    else some ('\\' :: run, rest.dropWhile Char.isAlpha)
  | none => none

/-- Fourth alternative: `[0-9]+(?:\.[0-9]+)?[\/][0-9]+`.  The digit runs
are maximal; if the character after the first run is `.`, only the
decimal branch can apply (giving back digits or skipping the optional
group would put a digit or the dot where `/` is required). -/
def tokNumFrac (s : List Char) : Option (List Char × List Char) :=
  let d1 := s.takeWhile Char.isDigit
  if d1.isEmpty then none else
  match s.dropWhile Char.isDigit with
  | c :: r1 =>
    if c = '.' then
      let dd := r1.takeWhile Char.isDigit
      if dd.isEmpty then none else
      match r1.dropWhile Char.isDigit with
      | c2 :: r2 =>
        if c2 = '/' then
          let d2 := r2.takeWhile Char.isDigit
          if d2.isEmpty then none
          else some (d1 ++ '.' :: (dd ++ '/' :: d2), r2.dropWhile Char.isDigit)
        else none
      | [] => none
    else if c = '/' then
      let d2 := r1.takeWhile Char.isDigit
      if d2.isEmpty then none
      else some (d1 ++ '/' :: d2, r1.dropWhile Char.isDigit)
    else none
  | [] => none

/-- The single-symbol character class `[=+\-×÷≤≥<>^]` (the `\-` in the
source is the ASCII hyphen-minus). -/
def isMathSymbol (c : Char) : Bool :=
  c == '=' || c == '+' || c == '-' || c == '×' || c == '÷' ||
  c == '≤' || c == '≥' || c == '<' || c == '>' || c == '^'

/-- Fifth alternative: a single symbol from the class. -/
def tokSymbol : List Char → Option (List Char × List Char)
  | c :: r => if isMathSymbol c then some ([c], r) else none
  | [] => none

/-- The token pattern of `src/js/utils.js` line 81 at one position:
the five alternatives tried in source order (JavaScript alternation is
ordered; nothing follows the group, so the first alternative that
matches wins). -/
def tokenMatch (s : List Char) : Option (List Char × List Char) :=
  match tokFrac s with
  | some x => some x
  | none =>
    match tokSqrt s with
    | some x => some x
    | none =>
      match tokBackslashRun s with
      | some x => some x
      | none =>
        match tokNumFrac s with
        | some x => some x
        | none => tokSymbol s

/-- Prepend a character to the leading gap of a split result. -/
def consGap (c : Char) :
    List (List Char × List Char) × List Char →
    List (List Char × List Char) × List Char
  | ([], last) => ([], c :: last)
  | (p :: ps, last) => ((c :: p.1, p.2) :: ps, last)

/-- `String.prototype.split` with the token pattern: scan left to
right; at each position take the token if the pattern matches there,
otherwise the character joins the current gap.  Returns the list of
(gap before token, token) pairs and the trailing gap.  Fuel is the
input length (every step consumes at least one character). -/
def splitGoF : Nat → List Char → List (List Char × List Char) × List Char
  | 0, s => ([], s)
  | _ + 1, [] => ([], [])
  | fuel + 1, c :: cs =>
    match tokenMatch (c :: cs) with
    | some (t, r) =>
      let x := splitGoF fuel r
      (([], t) :: x.1, x.2)
    | none => consGap c (splitGoF fuel cs)

/-- Split the whole input. -/
def splitGo (l : List Char) : List (List Char × List Char) × List Char :=
  splitGoF l.length l

/-- Flatten a split result into the part list that JavaScript
`split` returns with a capturing group: gap, token, gap, token, ...,
trailing gap. -/
def flattenSplit (x : List (List Char × List Char) × List Char) :
    List (List Char) :=
  x.1.foldr (fun p acc => p.1 :: p.2 :: acc) [x.2]

/-- Rejoin a split result: gaps and tokens concatenated in order. -/
def joinSplit (x : List (List Char × List Char) × List Char) : List Char :=
  x.1.foldr (fun p acc => p.1 ++ (p.2 ++ acc)) x.2

/-- `converted.split(tokenPattern).filter(Boolean)` from
`src/js/utils.js` line 82: the parts, with empty strings dropped. -/
def tokenize (l : List Char) : List (List Char) :=
  (flattenSplit (splitGo l)).filter (fun t => !t.isEmpty)

/-- First alternative of the classifier regex of line 86: the literal
`\\frac` (no brace arguments). -/
def testFracLit (s : List Char) : Bool := (dropLit fracLit s).isSome

/-- Second alternative of the classifier: the literal `\\sqrt`. -/
def testSqrtLit (s : List Char) : Bool := (dropLit sqrtLit s).isSome

/-- Third alternative of the classifier: `\\[a-zA-Z]+`. -/
def testBackslashRun (s : List Char) : Bool :=
  match dropLit ['\\'] s with
  | some (c :: _) => c.isAlpha
  | _ => false

/-- Fourth alternative of the classifier: `[0-9]+\/[0-9]+`. -/
def testNumFrac (s : List Char) : Bool :=
  let d1 := s.takeWhile Char.isDigit
  !d1.isEmpty &&
    (match s.dropWhile Char.isDigit with
     | c :: c2 :: _ => c = '/' && c2.isDigit
     | _ => false)

/-- Fifth alternative of the classifier: `[=+\-×÷≤≥<>^]`. -/
def testSymbol : List Char → Bool
  | c :: _ => isMathSymbol c
  | [] => false

/-- The classifier regex of line 86 anchored at one position. -/
def testAt (s : List Char) : Bool :=
  testFracLit s || testSqrtLit s || testBackslashRun s ||
  testNumFrac s || testSymbol s

/-- `regex.test(part)` for the classifier of line 86: an unanchored
search, true when some suffix position matches. -/
def hasTestMatch : List Char → Bool
  | [] => false
  | c :: cs => testAt (c :: cs) || hasTestMatch cs

/-- The math-typesetting engine of the host page: `none` models the
global `katex` being absent (or falsy, or without `renderToString`);
`some f` models an available engine whose `renderToString` may throw
(`Except.error`), which the source catches per segment. -/
def Engine : Type := Option (String → Except JsErr String)

/-- The per-part body of the `.map` in `src/js/utils.js` lines 84-100:
math-like parts go to the engine when available (with a local
try/catch), to an escaped `<code>` wrapper when not; plain parts are
escaped. -/
def renderSegment (eng : Engine) (p : List Char) : List Char :=
  if hasTestMatch p then
    match eng with
    | some f =>
      match f ⟨p⟩ with
      | .ok h => h.data
      | .error _ => escL p
    | none => "<code>".data ++ (escL p ++ "</code>".data)
  else escL p

/-- The body of the outer `try` of `renderMixedText`
(`src/js/utils.js` lines 79-101): normalize `plain || \x27\x27`, split
into parts, render each part, join. -/
def renderMixedTextBody (eng : Engine) (v : JSVal) : Except JsErr String :=
  (convertPlainToLatexFragment (jsOr v (JSVal.str ""))).map fun conv =>
    ⟨listJoin ((tokenize conv.data).map (renderSegment eng))⟩

/-- `renderMixedText` from `src/js/utils.js` lines 77-106: the body
wrapped in try/catch; on an exception the fallback
`escapeHtml(String(plain || \x27\x27))` is evaluated — whose own
stringification can itself throw. -/
def renderMixedText (eng : Engine) (v : JSVal) : Except JsErr String :=
  match renderMixedTextBody eng v with
  | .ok s => .ok s
  | .error _ => (jsToString (jsOr v (JSVal.str ""))).map escapeHtmlStr

theorem replCharL_append (c : Char) (r a b : List Char) :
    replCharL c r (a ++ b) = replCharL c r a ++ replCharL c r b := by
  induction a with
  | nil => rfl
  | cons x xs ih => simp [replCharL, ih]

theorem escL_append (a b : List Char) :
    escL (a ++ b) = escL a ++ escL b := by
  simp [escL, replCharL_append]

theorem escL_single (x : Char) : escL [x] = specEscapeChar x := by
  by_cases h1 : x = '&'
  · subst h1; decide
  by_cases h2 : x = '<'
  · subst h2; decide
  by_cases h3 : x = '>'
  · subst h3; decide
  by_cases h4 : x = quoteC
  · subst h4; decide
  by_cases h5 : x = aposC
  · subst h5; decide
  simp [escL, replCharL, specEscapeChar, h1, h2, h3, h4, h5]

/-- The chain of five replacements is the character-wise entity map:
ampersand is replaced first, so the ampersands introduced by the later
entity substitutions are never re-escaped. -/
theorem escL_eq_flatMap (l : List Char) :
    escL l = l.flatMap specEscapeChar := by
  induction l with
  | nil => rfl
  | cons x xs ih =>
    have : x :: xs = [x] ++ xs := rfl
    rw [this, escL_append, escL_single, ih]
    simp [List.flatMap_cons]

theorem specEscapeChar_not_special (c : Char) (h : isHtmlSpecial c = false) :
    specEscapeChar c = [c] := by
  simp only [isHtmlSpecial, Bool.or_eq_false_iff, beq_eq_false_iff_ne, ne_eq] at h
  obtain ⟨⟨⟨⟨h1, h2⟩, h3⟩, h4⟩, h5⟩ := h
  simp [specEscapeChar, h1, h2, h3, h4, h5]

theorem specEscapeChar_length_pos (c : Char) :
    1 ≤ (specEscapeChar c).length := by
  by_cases h : isHtmlSpecial c = true
  · simp only [isHtmlSpecial, Bool.or_eq_true, beq_iff_eq] at h
    rcases h with (((h | h) | h) | h) | h <;> subst h <;> decide
  · rw [specEscapeChar_not_special c (by simpa using h)]; simp

theorem specEscapeChar_special_length (c : Char) (h : isHtmlSpecial c = true) :
    4 ≤ (specEscapeChar c).length := by
  simp only [isHtmlSpecial, Bool.or_eq_true, beq_iff_eq] at h
  rcases h with (((h | h) | h) | h) | h <;> subst h <;> decide

theorem specEscapeChar_special_amp (c : Char) (h : isHtmlSpecial c = true) :
    '&' ∈ specEscapeChar c := by
  simp only [isHtmlSpecial, Bool.or_eq_true, beq_iff_eq] at h
  rcases h with (((h | h) | h) | h) | h <;> subst h <;> decide

theorem bindEsc_length_ge (l : List Char) :
    l.length ≤ (l.flatMap specEscapeChar).length := by
  induction l with
  | nil => simp
  | cons x xs ih =>
    simp only [List.flatMap_cons, List.length_append, List.length_cons]
    have := specEscapeChar_length_pos x
    omega

theorem bindEsc_length_gt (l : List Char) (c : Char) (hc : c ∈ l)
    (hs : isHtmlSpecial c = true) :
    l.length < (l.flatMap specEscapeChar).length := by
  induction l with
  | nil => cases hc
  | cons x xs ih =>
    simp only [List.flatMap_cons, List.length_append, List.length_cons]
    rcases List.mem_cons.mp hc with rfl | hmem
    · have h4 := specEscapeChar_special_length _ hs
      have h5 := bindEsc_length_ge xs
      omega
    · have h4 := ih hmem
      have h5 := specEscapeChar_length_pos x
      omega

theorem escL_length_gt (l : List Char) (c : Char) (hc : c ∈ l)
    (hs : isHtmlSpecial c = true) : l.length < (escL l).length := by
  rw [escL_eq_flatMap]; exact bindEsc_length_gt l c hc hs

theorem escL_mem_amp (l : List Char) (c : Char) (hc : c ∈ l)
    (hs : isHtmlSpecial c = true) : '&' ∈ escL l := by
  rw [escL_eq_flatMap]
  exact List.mem_flatMap.mpr ⟨c, hc, specEscapeChar_special_amp c hs⟩


theorem convertPlain_ok (w : JSVal) (h : w ≠ JSVal.badObj) :
    ∃ t : String, convertPlainToLatexFragment w = .ok t := by
  unfold convertPlainToLatexFragment
  by_cases hg : (jsFalsy w && !(w == JSVal.num 0)) = true
  · rw [if_pos hg]; exact ⟨"", rfl⟩
  · rw [if_neg hg]
    cases w with
    | badObj => exact absurd rfl h
    | null => exact ⟨_, rfl⟩
    | undefined => exact ⟨_, rfl⟩
    | bool b => exact ⟨_, rfl⟩
    | num n => exact ⟨_, rfl⟩
    | str s => exact ⟨_, rfl⟩

theorem convertPlain_error (w : JSVal) (e : JsErr)
    (h : convertPlainToLatexFragment w = .error e) :
    jsToString w = .error e := by
  unfold convertPlainToLatexFragment at h
  by_cases hg : (jsFalsy w && !(w == JSVal.num 0)) = true
  · rw [if_pos hg] at h; cases h
  · rw [if_neg hg] at h
    cases hw : jsToString w with
    | ok t => simp [hw, Except.map] at h
    | error e2 => cases e; cases e2; rfl

theorem jsOr_ne_badObj (v : JSVal) (h : v ≠ JSVal.badObj) :
    jsOr v (JSVal.str "") ≠ JSVal.badObj := by
  unfold jsOr
  by_cases hf : jsFalsy v = true
  · rw [if_pos hf]; intro hc; cases hc
  · rw [if_neg hf]; exact h

/-- C1 (amended): `renderMixedText` returns a string without throwing
for every input value whose string conversion cannot throw — that is,
for every `null`, `undefined`, boolean, number or string input,
including `null`, `undefined`, the empty string, and the number
`12345`.  (On an object whose `toString` conversion throws, the call
itself throws: see the counterexample.) -/
theorem c1_theorem (eng : Engine) (v : JSVal) (h : v ≠ JSVal.badObj) :
    ∃ s : String, renderMixedText eng v = .ok s := by
  obtain ⟨t, ht⟩ := convertPlain_ok (jsOr v (JSVal.str "")) (jsOr_ne_badObj v h)
  refine ⟨⟨listJoin ((tokenize t.data).map (renderSegment eng))⟩, ?_⟩
  unfold renderMixedText renderMixedTextBody
  rw [ht]
  rfl

/-- C1 counterexample: on an object whose string conversion throws
(`Object.create(null)`, `{toString(){throw e}}`), the conversion
`String(plain)` inside `convertPlainToLatexFragment` throws, and the
catch block then evaluates `escapeHtml(String(plain || ''))`, whose
`String(plain)` throws again — so `renderMixedText` raises a
`TypeError` to its caller instead of returning a string. -/
theorem c1_counterexample :
    renderMixedText none JSVal.badObj = .error JsErr.typeError := rfl

theorem c1_witness :
    JSVal.num 12345 ≠ JSVal.badObj ∧
    ∃ s : String, renderMixedText none (JSVal.num 12345) = .ok s :=
  ⟨by decide, c1_theorem none (JSVal.num 12345) (by decide)⟩

/-- C2 (amended): any exception of the inner normalize/tokenize/render
body is caught exactly once, at the outermost call, which then
evaluates the fallback `escapeHtml(String(plain || ''))` — a falsy
(`||`) coalescing of the original input, not a nullish (`??`) one.
For every input on which the inner body throws, the stringification of
the original input inside this fallback throws as well, so the whole
call raises instead of returning the escaped text. -/
theorem c2_theorem (eng : Engine) (v : JSVal) (e : JsErr)
    (h : renderMixedTextBody eng v = .error e) :
    ∃ e2 : JsErr, renderMixedText eng v = .error e2 := by
  have hconv : convertPlainToLatexFragment (jsOr v (JSVal.str "")) = .error e := by
    unfold renderMixedTextBody at h
    cases hc : convertPlainToLatexFragment (jsOr v (JSVal.str "")) with
    | ok t => simp [hc, Except.map] at h
    | error e2 => cases e; cases e2; rfl
  have hstr := convertPlain_error _ _ hconv
  refine ⟨e, ?_⟩
  unfold renderMixedText
  rw [h, hstr]
  rfl

/-- C2 counterexample: for the throwing-conversion object, the inner
pipeline throws, and the call does not return
`escape(String(input ?? ''))` — it raises (the fallback's own
`String(plain || '')` throws). -/
theorem c2_counterexample :
    renderMixedTextBody none JSVal.badObj = .error JsErr.typeError ∧
    renderMixedText none JSVal.badObj = .error JsErr.typeError :=
  ⟨rfl, rfl⟩

theorem c2_witness : ∃ e2 : JsErr,
    renderMixedText none JSVal.badObj = .error e2 :=
  c2_theorem none JSVal.badObj JsErr.typeError rfl

/-- C4 counterexample: with no engine available, the full pipeline on
`"x^2"` yields `x<code>^</code>{2}` — only the `^` token is wrapped in
the code marker; the output as a whole is not the escaped input
wrapped in `<code>…</code>` (it does not even start with `<code>`). -/
theorem c4_counterexample :
    renderMixedText none (JSVal.str "x^2") = .ok "x<code>^</code>{2}" ∧
    ("x<code>^</code>{2}").data.take 6 ≠ "<code>".data :=
  ⟨rfl, by decide⟩

/-- C4 (amended): when no engine is available, each math-classified
segment (not the whole input) is sanitizer-escaped and wrapped in the
fixed `<code>…</code>` marker; for the input `"x^2"` the pipeline
yields `x<code>^</code>{2}`: the `^` segment is escaped and wrapped,
while the surrounding `x` and `{2}` render as escaped plain text, and
no raw unescaped notation is emitted. -/
theorem c4_theorem :
    (∀ p : List Char, hasTestMatch p = true →
      renderSegment none p = "<code>".data ++ (escL p ++ "</code>".data)) ∧
    renderMixedText none (JSVal.str "x^2") = .ok "x<code>^</code>{2}" := by
  constructor
  · intro p hp
    unfold renderSegment
    rw [if_pos hp]
  · rfl

theorem c4_witness :
    hasTestMatch ("^".data) = true ∧
    renderSegment none ("^".data) =
      "<code>".data ++ (escL ("^".data) ++ "</code>".data) :=
  ⟨by decide, c4_theorem.1 ("^".data) (by decide)⟩

/-- C6: the normalizer is total on strings — for every string input,
including `""` and `"0"`, it returns a string — and the numeric input
`0` passes the falsy guard (`!plain && plain !== 0`) and normalizes to
its string form `"0"`, not to the empty result. -/
theorem c6_theorem :
    (∀ s : String, ∃ out : String,
      convertPlainToLatexFragment (JSVal.str s) = .ok out) ∧
    convertPlainToLatexFragment (JSVal.num 0) = .ok "0" := by
  constructor
  · intro s
    exact convertPlain_ok (JSVal.str s) (by intro hc; cases hc)
  · rfl

/-- C7: the sanitizer maps `null` and `undefined` to the empty string
without failing, and on any string it escapes exactly the five
HTML-significant characters to their entity forms, character-wise: the
chained replacement (ampersand first) coincides with the one-pass
entity map, so entities introduced by the later substitutions are
never double-escaped. -/
theorem c7_theorem :
    escapeHtml JSVal.null = .ok "" ∧
    escapeHtml JSVal.undefined = .ok "" ∧
    ∀ s : String, escapeHtml (JSVal.str s) = .ok ⟨s.data.flatMap specEscapeChar⟩ := by
  refine ⟨rfl, rfl, fun s => ?_⟩
  have : escapeHtml (JSVal.str s) = .ok (escapeHtmlStr s) := rfl
  rw [this]
  unfold escapeHtmlStr
  rw [escL_eq_flatMap]

theorem flatMap_esc_id : ∀ l : List Char,
    (∀ c ∈ l, isHtmlSpecial c = false) → l.flatMap specEscapeChar = l := by
  intro l
  induction l with
  | nil => intro _; rfl
  | cons x xs ih =>
    intro hl
    rw [List.flatMap_cons, specEscapeChar_not_special x (hl x (by simp)),
      ih (fun c hc => hl c (by simp [hc]))]
    rfl

/-- C8: escaping is the identity exactly on strings with none of the
five HTML-significant characters, and is not idempotent on any string
that contains one of them: escaping such a string introduces an
ampersand, so escaping twice double-encodes. -/
theorem c8_theorem :
    (∀ s : String, (∀ c ∈ s.data, isHtmlSpecial c = false) →
      escapeHtmlStr s = s) ∧
    (∀ s : String, (∃ c ∈ s.data, isHtmlSpecial c = true) →
      escapeHtmlStr (escapeHtmlStr s) ≠ escapeHtmlStr s) := by
  constructor
  · intro s hs
    unfold escapeHtmlStr
    rw [escL_eq_flatMap, flatMap_esc_id s.data hs]
  · intro s hs
    obtain ⟨c, hc, hcs⟩ := hs
    intro heq
    have hamp : '&' ∈ (escapeHtmlStr s).data := escL_mem_amp s.data c hc hcs
    have hlen : (escapeHtmlStr s).data.length <
        (escapeHtmlStr (escapeHtmlStr s)).data.length :=
      escL_length_gt (escapeHtmlStr s).data '&' hamp (by decide)
    rw [heq] at hlen
    exact lt_irrefl _ hlen

theorem c8_witness :
    escapeHtmlStr "abc" = "abc" ∧
    escapeHtmlStr (escapeHtmlStr "<") ≠ escapeHtmlStr "<" :=
  ⟨c8_theorem.1 "abc" (by decide), c8_theorem.2 "<" ⟨'<', by decide, by decide⟩⟩

/-- C9: the fraction rules — `"3/4"` normalizes to the fraction macro
with numerator `3` and denominator `4`, and `"(x+1)/(y-2)"` (matched
by the parenthesized rule, which runs before the bare-integer rule)
normalizes to the fraction macro whose numerator and denominator are
the literal inner substrings `x+1` and `y-2`, not recursively
normalized. -/
theorem c9_theorem :
    convertPlainToLatexFragment (JSVal.str "3/4") = .ok "\\frac{3}{4}" ∧
    convertPlainToLatexFragment (JSVal.str "(x+1)/(y-2)") = .ok "\\frac{x+1}{y-2}" :=
  ⟨rfl, rfl⟩

/-- C10: at the public interface the falsy coalescing `plain || ''` on
line 79 discards the number `0` before it reaches the normalizer, so
the full pipeline renders `0` as the empty string, even though the
normalizer itself (with its explicit zero guard) would map `0` to
`"0"`. -/
theorem c10_theorem (eng : Engine) :
    renderMixedText eng (JSVal.num 0) = .ok "" ∧
    convertPlainToLatexFragment (JSVal.num 0) = .ok "0" :=
  ⟨rfl, rfl⟩

theorem dropLit_spec : ∀ pat s rest : List Char,
    dropLit pat s = some rest → pat ++ rest = s := by
  intro pat
  induction pat with
  | nil =>
    intro s rest h
    cases h
    rfl
  | cons p ps ih =>
    intro s rest h
    cases s with
    | nil => simp [dropLit] at h
    | cons c cs =>
      simp only [dropLit] at h
      by_cases hc : c = p
      · rw [if_pos hc] at h
        subst hc
        rw [List.cons_append, ih cs rest h]
      · rw [if_neg hc] at h; cases h

theorem tokBraceArg_spec (s g r : List Char) (h : tokBraceArg s = some (g, r)) :
    g ++ r = s ∧ g ≠ [] := by
  cases s with
  | nil => simp [tokBraceArg] at h
  | cons c cs =>
    have hsplit := List.takeWhile_append_dropWhile (fun x => decide (x ≠ cbrace)) cs
    by_cases hc : c = obrace
    · simp only [tokBraceArg, if_pos hc] at h
      by_cases ha : (cs.takeWhile (fun x => decide (x ≠ cbrace))).isEmpty
      · rw [if_pos ha] at h; cases h
      · rw [if_neg ha] at h
        cases hd : cs.dropWhile (fun x => decide (x ≠ cbrace)) with
        | nil => rw [hd] at h; cases h
        | cons d r2 =>
          rw [hd] at h
          dsimp only at h
          by_cases hdc : d = cbrace
          · rw [if_pos hdc] at h
            cases h
            subst hc
            subst hdc
            rw [hd] at hsplit
            refine ⟨?_, by simp⟩
            rw [List.cons_append, List.append_assoc]
            simpa using hsplit
          · rw [if_neg hdc] at h; cases h
    · simp [tokBraceArg, hc] at h

theorem tokFrac_spec (s t r : List Char) (h : tokFrac s = some (t, r)) :
    t ++ r = s ∧ t ≠ [] := by
  unfold tokFrac at h
  cases h0 : dropLit fracLit s with
  | none => rw [h0] at h; cases h
  | some rest =>
    rw [h0] at h
    dsimp only at h
    cases h1 : tokBraceArg rest with
    | none => rw [h1] at h; cases h
    | some g1r1 =>
      obtain ⟨g1, r1⟩ := g1r1
      rw [h1] at h
      dsimp only at h
      cases h2 : tokBraceArg r1 with
      | none => rw [h2] at h; cases h
      | some g2r2 =>
        obtain ⟨g2, r2⟩ := g2r2
        rw [h2] at h
        dsimp only at h
        cases h
        obtain ⟨e1, _⟩ := tokBraceArg_spec _ _ _ h1
        obtain ⟨e2, _⟩ := tokBraceArg_spec _ _ _ h2
        have e0 := dropLit_spec _ _ _ h0
        refine ⟨?_, by simp [fracLit]⟩
        rw [List.append_assoc, List.append_assoc, e2, e1, e0]

theorem tokSqrt_spec (s t r : List Char) (h : tokSqrt s = some (t, r)) :
    t ++ r = s ∧ t ≠ [] := by
  unfold tokSqrt at h
  cases h0 : dropLit sqrtLit s with
  | none => rw [h0] at h; cases h
  | some rest =>
    rw [h0] at h
    dsimp only at h
    cases h1 : tokBraceArg rest with
    | none => rw [h1] at h; cases h
    | some g1r1 =>
      obtain ⟨g1, r1⟩ := g1r1
      rw [h1] at h
      dsimp only at h
      cases h
      obtain ⟨e1, _⟩ := tokBraceArg_spec _ _ _ h1
      have e0 := dropLit_spec _ _ _ h0
      refine ⟨?_, by simp [sqrtLit]⟩
      rw [List.append_assoc, e1, e0]

theorem tokBackslashRun_spec (s t r : List Char)
    (h : tokBackslashRun s = some (t, r)) : t ++ r = s ∧ t ≠ [] := by
  unfold tokBackslashRun at h
  cases h0 : dropLit ['\\'] s with
  | none => rw [h0] at h; cases h
  | some rest =>
    rw [h0] at h
    dsimp only at h
    by_cases hrun : (rest.takeWhile Char.isAlpha).isEmpty
    · rw [if_pos hrun] at h; cases h
    · rw [if_neg hrun] at h
      cases h
      have e0 := dropLit_spec ['\\'] s rest h0
      refine ⟨?_, by simp⟩
      rw [List.cons_append, List.takeWhile_append_dropWhile]
      exact e0

theorem tokNumFrac_spec (s t r : List Char) (h : tokNumFrac s = some (t, r)) :
    t ++ r = s ∧ t ≠ [] := by
  unfold tokNumFrac at h
  have hsplit := List.takeWhile_append_dropWhile Char.isDigit s
  by_cases h1 : (s.takeWhile Char.isDigit).isEmpty
  · rw [if_pos h1] at h; cases h
  · rw [if_neg h1] at h
    have hne : s.takeWhile Char.isDigit ≠ [] := by
      simpa [List.isEmpty_iff] using h1
    cases hd : s.dropWhile Char.isDigit with
    | nil => rw [hd] at h; cases h
    | cons c r1 =>
      rw [hd] at h
      rw [hd] at hsplit
      dsimp only at h
      by_cases hdot : c = '.'
      · rw [if_pos hdot] at h
        subst hdot
        by_cases h2 : (r1.takeWhile Char.isDigit).isEmpty
        · rw [if_pos h2] at h; cases h
        · rw [if_neg h2] at h
          have hsplit2 := List.takeWhile_append_dropWhile Char.isDigit r1
          cases hd2 : r1.dropWhile Char.isDigit with
          | nil => rw [hd2] at h; cases h
          | cons c2 r2 =>
            rw [hd2] at h
            rw [hd2] at hsplit2
            dsimp only at h
            by_cases hsl : c2 = '/'
            · rw [if_pos hsl] at h
              subst hsl
              by_cases h3 : (r2.takeWhile Char.isDigit).isEmpty
              · rw [if_pos h3] at h; cases h
              · rw [if_neg h3] at h
                cases h
                have hsplit3 := List.takeWhile_append_dropWhile Char.isDigit r2
                refine ⟨?_, by simp [hne]⟩
                rw [List.append_assoc]
                simp only [List.cons_append, List.append_assoc, hsplit3, hsplit2, hsplit]
            · rw [if_neg hsl] at h; cases h
      · rw [if_neg hdot] at h
        by_cases hsl : c = '/'
        · rw [if_pos hsl] at h
          subst hsl
          by_cases h3 : (r1.takeWhile Char.isDigit).isEmpty
          · rw [if_pos h3] at h; cases h
          · rw [if_neg h3] at h
            cases h
            have hsplit3 := List.takeWhile_append_dropWhile Char.isDigit r1
            refine ⟨?_, by simp [hne]⟩
            rw [List.append_assoc]
            simp only [List.cons_append, List.append_assoc, hsplit3, hsplit]
        · rw [if_neg hsl] at h; cases h

theorem tokSymbol_spec (s t r : List Char) (h : tokSymbol s = some (t, r)) :
    t ++ r = s ∧ t ≠ [] := by
  cases s with
  | nil => simp [tokSymbol] at h
  | cons c cs =>
    simp only [tokSymbol] at h
    by_cases hc : isMathSymbol c = true
    · rw [if_pos hc] at h; cases h; exact ⟨rfl, by simp⟩
    · rw [if_neg hc] at h; cases h

theorem tokenMatch_spec (s t r : List Char) (h : tokenMatch s = some (t, r)) :
    t ++ r = s ∧ t ≠ [] := by
  unfold tokenMatch at h
  cases h1 : tokFrac s with
  | some x => rw [h1] at h; cases h; exact tokFrac_spec s t r h1
  | none =>
    rw [h1] at h
    cases h2 : tokSqrt s with
    | some x => rw [h2] at h; cases h; exact tokSqrt_spec s t r h2
    | none =>
      rw [h2] at h
      cases h3 : tokBackslashRun s with
      | some x => rw [h3] at h; cases h; exact tokBackslashRun_spec s t r h3
      | none =>
        rw [h3] at h
        cases h4 : tokNumFrac s with
        | some x => rw [h4] at h; cases h; exact tokNumFrac_spec s t r h4
        | none =>
          rw [h4] at h
          exact tokSymbol_spec s t r h

theorem joinSplit_consGap (c : Char)
    (x : List (List Char × List Char) × List Char) :
    joinSplit (consGap c x) = c :: joinSplit x := by
  obtain ⟨ps, last⟩ := x
  cases ps with
  | nil => rfl
  | cons p ps2 => rfl

theorem splitGoF_join (fuel : Nat) : ∀ s, joinSplit (splitGoF fuel s) = s := by
  induction fuel with
  | zero => intro s; rfl
  | succ n ih =>
    intro s
    cases s with
    | nil => rfl
    | cons c cs =>
      simp only [splitGoF]
      cases hm : tokenMatch (c :: cs) with
      | none => rw [joinSplit_consGap, ih cs]
      | some tr =>
        obtain ⟨t, r⟩ := tr
        obtain ⟨hcat, _⟩ := tokenMatch_spec _ _ _ hm
        show joinSplit (([], t) :: (splitGoF n r).1, (splitGoF n r).2) = c :: cs
        have : joinSplit (([], t) :: (splitGoF n r).1, (splitGoF n r).2) =
            t ++ joinSplit (splitGoF n r) := rfl
        rw [this, ih r, hcat]

theorem listJoin_filter (xs : List (List Char)) :
    listJoin (xs.filter (fun t => !t.isEmpty)) = listJoin xs := by
  induction xs with
  | nil => rfl
  | cons x rest ih =>
    cases x with
    | nil =>
      rw [List.filter_cons_of_neg (by simp)]
      show listJoin (rest.filter fun t => !t.isEmpty) = [] ++ listJoin rest
      rw [ih]
      rfl
    | cons y ys =>
      rw [List.filter_cons_of_pos (by simp)]
      show (y :: ys) ++ listJoin (rest.filter fun t => !t.isEmpty) =
        (y :: ys) ++ listJoin rest
      rw [ih]

theorem listJoin_flattenSplit (x : List (List Char × List Char) × List Char) :
    listJoin (flattenSplit x) = joinSplit x := by
  obtain ⟨ps, last⟩ := x
  induction ps with
  | nil => simp [flattenSplit, listJoin, joinSplit]
  | cons p ps2 ih =>
    simp only [flattenSplit, listJoin, joinSplit, List.foldr_cons] at ih ⊢
    rw [ih]

/-- C3: round-trip segment coverage — for every fragment, the parts
produced by the tokenizer (the split with its single capturing group,
empty strings dropped) concatenate back to the input exactly: the
segments partition the fragment with no gaps and no overlaps. -/
theorem c3_theorem (l : List Char) : listJoin (tokenize l) = l := by
  unfold tokenize
  rw [listJoin_filter, listJoin_flattenSplit]
  exact splitGoF_join l.length l

theorem dropLit_self : ∀ pat rest : List Char, dropLit pat (pat ++ rest) = some rest := by
  intro pat
  induction pat with
  | nil => intro rest; rfl
  | cons p ps ih => intro rest; simp [dropLit, ih]

theorem takeWhile_middle (p : Char → Bool) (d : List Char) (c : Char)
    (rest : List Char) (hd : ∀ x ∈ d, p x = true) (hc : p c = false) :
    (d ++ c :: rest).takeWhile p = d ∧ (d ++ c :: rest).dropWhile p = c :: rest := by
  induction d with
  | nil => simp [List.takeWhile_cons, List.dropWhile_cons, hc]
  | cons x xs ih =>
    have hx : p x = true := hd x (by simp)
    have ihh := ih (fun y hy => hd y (by simp [hy]))
    simp [List.takeWhile_cons, List.dropWhile_cons, hx, ihh.1, ihh.2]

theorem testAt_head_true (s : List Char) (h : testAt s = true) :
    hasTestMatch s = true := by
  cases s with
  | nil => exact absurd h (by decide)
  | cons c cs => simp [hasTestMatch, h]

theorem hasTestMatch_append_right (a b : List Char) (h : hasTestMatch b = true) :
    hasTestMatch (a ++ b) = true := by
  induction a with
  | nil => simpa
  | cons x xs ih => simp [hasTestMatch, ih]

theorem testNumFrac_form (d : List Char) (c2 : Char) (rest : List Char)
    (hd : ∀ x ∈ d, x.isDigit = true) (hdne : d ≠ []) (hc2 : c2.isDigit = true) :
    testNumFrac (d ++ '/' :: c2 :: rest) = true := by
  obtain ⟨ht, hw⟩ := takeWhile_middle Char.isDigit d '/' (c2 :: rest) hd (by decide)
  unfold testNumFrac
  rw [ht, hw]
  simp [hdne, hc2, List.isEmpty_iff]

theorem tokFrac_math (s t r : List Char) (h : tokFrac s = some (t, r)) :
    hasTestMatch t = true := by
  unfold tokFrac at h
  cases h0 : dropLit fracLit s with
  | none => rw [h0] at h; cases h
  | some rest =>
    rw [h0] at h; dsimp only at h
    cases h1 : tokBraceArg rest with
    | none => rw [h1] at h; cases h
    | some g1r1 =>
      obtain ⟨g1, r1⟩ := g1r1
      rw [h1] at h; dsimp only at h
      cases h2 : tokBraceArg r1 with
      | none => rw [h2] at h; cases h
      | some g2r2 =>
        obtain ⟨g2, r2⟩ := g2r2
        rw [h2] at h; dsimp only at h
        cases h
        apply testAt_head_true
        simp [testAt, testFracLit, dropLit_self]

theorem tokSqrt_math (s t r : List Char) (h : tokSqrt s = some (t, r)) :
    hasTestMatch t = true := by
  unfold tokSqrt at h
  cases h0 : dropLit sqrtLit s with
  | none => rw [h0] at h; cases h
  | some rest =>
    rw [h0] at h; dsimp only at h
    cases h1 : tokBraceArg rest with
    | none => rw [h1] at h; cases h
    | some g1r1 =>
      obtain ⟨g1, r1⟩ := g1r1
      rw [h1] at h; dsimp only at h
      cases h
      apply testAt_head_true
      simp [testAt, testSqrtLit, dropLit_self]

theorem tokBackslashRun_math (s t r : List Char)
    (h : tokBackslashRun s = some (t, r)) : hasTestMatch t = true := by
  unfold tokBackslashRun at h
  cases h0 : dropLit ['\\'] s with
  | none => rw [h0] at h; cases h
  | some rest =>
    rw [h0] at h; dsimp only at h
    by_cases hrun : (rest.takeWhile Char.isAlpha).isEmpty
    · rw [if_pos hrun] at h; cases h
    · rw [if_neg hrun] at h
      cases h
      apply testAt_head_true
      cases hr : rest.takeWhile Char.isAlpha with
      | nil => rw [hr] at hrun; exact absurd rfl hrun
      | cons y ys =>
        have hy : y.isAlpha = true :=
          List.mem_takeWhile_imp (by rw [hr]; exact List.mem_cons_self y ys)
        simp [testAt, testBackslashRun, hr, dropLit, hy]

theorem tokNumFrac_math (s t r : List Char) (h : tokNumFrac s = some (t, r)) :
    hasTestMatch t = true := by
  unfold tokNumFrac at h
  by_cases h1 : (s.takeWhile Char.isDigit).isEmpty
  · rw [if_pos h1] at h; cases h
  · rw [if_neg h1] at h
    have hne : s.takeWhile Char.isDigit ≠ [] := by
      simpa [List.isEmpty_iff] using h1
    have hd1 : ∀ x ∈ s.takeWhile Char.isDigit, x.isDigit = true :=
      fun x hx => List.mem_takeWhile_imp hx
    cases hd : s.dropWhile Char.isDigit with
    | nil => rw [hd] at h; cases h
    | cons c r1 =>
      rw [hd] at h; dsimp only at h
      by_cases hdot : c = '.'
      · rw [if_pos hdot] at h
        by_cases h2 : (r1.takeWhile Char.isDigit).isEmpty
        · rw [if_pos h2] at h; cases h
        · rw [if_neg h2] at h
          have hne2 : r1.takeWhile Char.isDigit ≠ [] := by
            simpa [List.isEmpty_iff] using h2
          have hdd : ∀ x ∈ r1.takeWhile Char.isDigit, x.isDigit = true :=
            fun x hx => List.mem_takeWhile_imp hx
          cases hd2 : r1.dropWhile Char.isDigit with
          | nil => rw [hd2] at h; cases h
          | cons c2 r2 =>
            rw [hd2] at h; dsimp only at h
            by_cases hsl : c2 = '/'
            · rw [if_pos hsl] at h
              by_cases h3 : (r2.takeWhile Char.isDigit).isEmpty
              · rw [if_pos h3] at h; cases h
              · rw [if_neg h3] at h
                cases h
                cases hd3 : r2.takeWhile Char.isDigit with
                | nil => rw [hd3] at h3; exact absurd rfl h3
                | cons z zs =>
                  have hz : z.isDigit = true :=
                    List.mem_takeWhile_imp (by rw [hd3]; exact List.mem_cons_self z zs)
                  have hsub : testNumFrac
                      (r1.takeWhile Char.isDigit ++ '/' :: z :: zs) = true := by
                    apply testNumFrac_form _ _ _ hdd hne2 hz
                  have hstep : hasTestMatch
                      (r1.takeWhile Char.isDigit ++ '/' :: z :: zs) = true := by
                    apply testAt_head_true
                    cases hq : r1.takeWhile Char.isDigit with
                    | nil => exact absurd hq hne2
                    | cons w ws =>
                      rw [hq] at hsub
                      simp only [List.cons_append] at hsub
                      simp [testAt, hsub]
                  have hsh : s.takeWhile Char.isDigit ++
                      '.' :: (r1.takeWhile Char.isDigit ++ '/' :: z :: zs) =
                      (s.takeWhile Char.isDigit ++ ['.']) ++
                      (r1.takeWhile Char.isDigit ++ '/' :: z :: zs) := by
                    simp
                  rw [hsh]
                  exact hasTestMatch_append_right _ _ hstep
            · rw [if_neg hsl] at h; cases h
      · rw [if_neg hdot] at h
        by_cases hsl : c = '/'
        · rw [if_pos hsl] at h
          subst hsl
          by_cases h3 : (r1.takeWhile Char.isDigit).isEmpty
          · rw [if_pos h3] at h; cases h
          · rw [if_neg h3] at h
            cases h
            cases hd3 : r1.takeWhile Char.isDigit with
            | nil => rw [hd3] at h3; exact absurd rfl h3
            | cons z zs =>
              have hz : z.isDigit = true :=
                List.mem_takeWhile_imp (by rw [hd3]; exact List.mem_cons_self z zs)
              apply testAt_head_true
              have hsub := testNumFrac_form _ _ zs hd1 hne hz
              cases hq : s.takeWhile Char.isDigit with
              | nil => exact absurd hq hne
              | cons w ws =>
                rw [hq] at hsub
                simp only [List.cons_append] at hsub
                simp [testAt, hsub]
        · rw [if_neg hsl] at h; cases h

theorem tokSymbol_math (s t r : List Char) (h : tokSymbol s = some (t, r)) :
    hasTestMatch t = true := by
  cases s with
  | nil => simp [tokSymbol] at h
  | cons c cs =>
    simp only [tokSymbol] at h
    by_cases hc : isMathSymbol c = true
    · rw [if_pos hc] at h
      cases h
      apply testAt_head_true
      simp [testAt, testSymbol, hc]
    · rw [if_neg hc] at h; cases h

theorem tokenMatch_math (s t r : List Char) (h : tokenMatch s = some (t, r)) :
    hasTestMatch t = true := by
  unfold tokenMatch at h
  cases h1 : tokFrac s with
  | some x => rw [h1] at h; cases h; exact tokFrac_math s t r h1
  | none =>
    rw [h1] at h
    cases h2 : tokSqrt s with
    | some x => rw [h2] at h; cases h; exact tokSqrt_math s t r h2
    | none =>
      rw [h2] at h
      cases h3 : tokBackslashRun s with
      | some x => rw [h3] at h; cases h; exact tokBackslashRun_math s t r h3
      | none =>
        rw [h3] at h
        cases h4 : tokNumFrac s with
        | some x => rw [h4] at h; cases h; exact tokNumFrac_math s t r h4
        | none => rw [h4] at h; exact tokSymbol_math s t r h

theorem splitGoF_toks (fuel : Nat) : ∀ s p, p ∈ (splitGoF fuel s).1 →
    hasTestMatch p.2 = true := by
  induction fuel with
  | zero => intro s p hp; simp [splitGoF] at hp
  | succ n ih =>
    intro s p hp
    cases s with
    | nil => simp [splitGoF] at hp
    | cons c cs =>
      simp only [splitGoF] at hp
      cases hm : tokenMatch (c :: cs) with
      | some tr =>
        obtain ⟨t, r⟩ := tr
        rw [hm] at hp
        dsimp only at hp
        rcases List.mem_cons.mp hp with rfl | hp2
        · exact tokenMatch_math _ _ _ hm
        · exact ih r p hp2
      | none =>
        rw [hm] at hp
        dsimp only at hp
        rcases hx : splitGoF n cs with ⟨ps, last⟩
        rw [hx] at hp
        cases ps with
        | nil => simp [consGap] at hp
        | cons q qs =>
          simp only [consGap] at hp
          rcases List.mem_cons.mp hp with rfl | hp2
          · have hq : q ∈ (splitGoF n cs).1 := by
              rw [hx]; exact List.mem_cons_self q qs
            exact ih cs q hq
          · exact ih cs p (by rw [hx]; exact List.mem_cons_of_mem _ hp2)

theorem tokenMatch_none (s : List Char) (h : tokenMatch s = none) :
    tokBackslashRun s = none ∧ tokNumFrac s = none ∧ tokSymbol s = none := by
  unfold tokenMatch at h
  cases h1 : tokFrac s with
  | some x => rw [h1] at h; cases h
  | none =>
    rw [h1] at h
    cases h2 : tokSqrt s with
    | some x => rw [h2] at h; cases h
    | none =>
      rw [h2] at h
      cases h3 : tokBackslashRun s with
      | some x => rw [h3] at h; cases h
      | none =>
        rw [h3] at h
        cases h4 : tokNumFrac s with
        | some x => rw [h4] at h; cases h
        | none => rw [h4] at h; exact ⟨rfl, rfl, h⟩

theorem tokBackslashRun_cons_alpha (c : Char) (rest : List Char)
    (hc : c.isAlpha = true) : tokBackslashRun ('\\' :: c :: rest) ≠ none := by
  unfold tokBackslashRun
  simp [dropLit, List.takeWhile_cons, hc]

theorem tokNumFrac_form (d : List Char) (c2 : Char) (rest : List Char)
    (hd : ∀ y ∈ d, y.isDigit = true) (hdne : d ≠ []) (hc2 : c2.isDigit = true) :
    tokNumFrac (d ++ '/' :: c2 :: rest) ≠ none := by
  obtain ⟨ht, hw⟩ := takeWhile_middle Char.isDigit d '/' (c2 :: rest) hd (by decide)
  unfold tokNumFrac
  rw [ht, hw]
  dsimp only
  rw [if_neg (by simpa [List.isEmpty_iff] using hdne)]
  rw [if_neg (by decide), if_pos rfl]
  rw [List.takeWhile_cons_of_pos hc2]
  simp

/-- Monotonicity of the classifier against the splitter: if the
classifier regex matches at the start of `x`, then the split pattern
matches at the start of `x ++ ext` for any continuation — each test
alternative implies a split alternative whose greedy runs can only
grow into the continuation. -/
theorem testAt_extend (x ext : List Char) (h : testAt x = true) :
    tokenMatch (x ++ ext) ≠ none := by
  intro hnone
  obtain ⟨hbs, hnf, hsym⟩ := tokenMatch_none _ hnone
  unfold testAt at h
  simp only [Bool.or_eq_true] at h
  rcases h with (((hA | hB) | hC) | hD) | hE
  · unfold testFracLit at hA
    cases h0 : dropLit fracLit x with
    | none => rw [h0] at hA; cases hA
    | some rest =>
      have hx := dropLit_spec _ _ _ h0
      rw [← hx] at hbs
      exact absurd hbs (by
        simpa [fracLit, List.cons_append] using
          tokBackslashRun_cons_alpha 'f' ('r' :: 'a' :: 'c' :: (rest ++ ext)) (by decide))
  · unfold testSqrtLit at hB
    cases h0 : dropLit sqrtLit x with
    | none => rw [h0] at hB; cases hB
    | some rest =>
      have hx := dropLit_spec _ _ _ h0
      rw [← hx] at hbs
      exact absurd hbs (by
        simpa [sqrtLit, List.cons_append] using
          tokBackslashRun_cons_alpha 's' ('q' :: 'r' :: 't' :: (rest ++ ext)) (by decide))
  · unfold testBackslashRun at hC
    cases x with
    | nil => simp [dropLit] at hC
    | cons a as =>
      by_cases ha : a = '\\'
      · subst ha
        rw [show dropLit ['\\'] ('\\' :: as) = some as by simp [dropLit]] at hC
        cases as with
        | nil => cases hC
        | cons y ys =>
          dsimp only at hC
          exact absurd hbs (by
            simpa [List.cons_append] using
              tokBackslashRun_cons_alpha y (ys ++ ext) hC)
      · rw [show dropLit ['\\'] (a :: as) = none by simp [dropLit, ha]] at hC
        cases hC
  · unfold testNumFrac at hD
    simp only [Bool.and_eq_true] at hD
    obtain ⟨hd1, hd2⟩ := hD
    have hne : x.takeWhile Char.isDigit ≠ [] := by
      simpa [List.isEmpty_iff] using hd1
    have hdall : ∀ y ∈ x.takeWhile Char.isDigit, y.isDigit = true :=
      fun y hy => List.mem_takeWhile_imp hy
    cases hw : x.dropWhile Char.isDigit with
    | nil => rw [hw] at hd2; cases hd2
    | cons c rest =>
      rw [hw] at hd2
      cases rest with
      | nil => cases hd2
      | cons c2 rest2 =>
        dsimp only at hd2
        simp only [Bool.and_eq_true, decide_eq_true_eq] at hd2
        obtain ⟨rfl, hc2⟩ := hd2
        have hxeq : x = x.takeWhile Char.isDigit ++ '/' :: c2 :: rest2 := by
          rw [← hw]
          exact (List.takeWhile_append_dropWhile Char.isDigit x).symm
        rw [hxeq, List.append_assoc] at hnf
        simp only [List.cons_append] at hnf
        exact tokNumFrac_form (x.takeWhile Char.isDigit) c2 (rest2 ++ ext)
          hdall hne hc2 hnf
  · unfold testSymbol at hE
    cases x with
    | nil => cases hE
    | cons c cs =>
      simp only [List.cons_append] at hsym
      simp only [tokSymbol] at hsym
      rw [if_pos hE] at hsym
      cases hsym

theorem splitGoF_gaps (fuel : Nat) : ∀ s, s.length ≤ fuel →
    ((∀ p ∈ (splitGoF fuel s).1, hasTestMatch p.1 = false) ∧
     hasTestMatch (splitGoF fuel s).2 = false) := by
  induction fuel with
  | zero =>
    intro s hs
    cases s with
    | nil => exact ⟨by intro p hp; simp [splitGoF] at hp, by simp [splitGoF, hasTestMatch]⟩
    | cons c cs => simp at hs
  | succ n ih =>
    intro s hs
    cases s with
    | nil => exact ⟨by intro p hp; simp [splitGoF] at hp, by simp [splitGoF, hasTestMatch]⟩
    | cons c cs =>
      have hcs : cs.length ≤ n := by simp at hs; omega
      simp only [splitGoF]
      cases hm : tokenMatch (c :: cs) with
      | some tr =>
        obtain ⟨t, r⟩ := tr
        obtain ⟨hcat, hne⟩ := tokenMatch_spec _ _ _ hm
        have hr : r.length ≤ n := by
          have hlen : t.length + r.length = cs.length + 1 := by
            rw [← List.length_append, hcat]
            simp
          have ht1 : 1 ≤ t.length := by
            cases t with
            | nil => exact absurd rfl hne
            | cons a as => simp
          omega
        obtain ⟨ih1, ih2⟩ := ih r hr
        constructor
        · intro p hp
          dsimp only at hp
          rcases List.mem_cons.mp hp with rfl | hp2
          · rfl
          · exact ih1 p hp2
        · exact ih2
      | none =>
        obtain ⟨ih1, ih2⟩ := ih cs hcs
        have hjoin := splitGoF_join n cs
        rcases hx : splitGoF n cs with ⟨ps, last⟩
        rw [hx] at hjoin ih1 ih2
        cases ps with
        | nil =>
          have hlast : last = cs := by simpa [joinSplit] using hjoin
          constructor
          · intro p hp
            simp [consGap] at hp
          · show hasTestMatch (c :: last) = false
            have hT : testAt (c :: last) = false := by
              cases hTc : testAt (c :: last) with
              | false => rfl
              | true =>
                exfalso
                apply testAt_extend (c :: last) [] hTc
                rw [List.append_nil, hlast]
                exact hm
            have hl2 : hasTestMatch last = false := ih2
            show (testAt (c :: last) || hasTestMatch last) = false
            rw [hT, hl2]
            rfl
        | cons q qs =>
          constructor
          · intro p hp
            simp only [consGap] at hp
            rcases List.mem_cons.mp hp with rfl | hp2
            · show hasTestMatch (c :: q.1) = false
              have hq1 : hasTestMatch q.1 = false :=
                ih1 q (List.mem_cons_self q qs)
              have hT : testAt (c :: q.1) = false := by
                cases hTc : testAt (c :: q.1) with
                | false => rfl
                | true =>
                  exfalso
                  apply testAt_extend (c :: q.1) (q.2 ++ joinSplit (qs, last)) hTc
                  have hfull : (c :: q.1) ++ (q.2 ++ joinSplit (qs, last)) = c :: cs := by
                    have : q.1 ++ (q.2 ++ joinSplit (qs, last)) = cs := by
                      simpa [joinSplit] using hjoin
                    simp [List.cons_append, this]
                  rw [hfull]
                  exact hm
              show (testAt (c :: q.1) || hasTestMatch q.1) = false
              rw [hT, hq1]
              rfl
            · exact ih1 p (List.mem_cons_of_mem q hp2)
          · exact ih2

/-- C5 counterexample: the split pattern does not match bare contiguous
alphabetic runs — its third alternative is `\\[a-zA-Z]+`, a backslash
followed by an alphabetic run.  The fragment `abc` is therefore a
single unmatched gap, classified PLAIN (the classifier finds no match
in it), and the full pipeline renders it as plain escaped text with no
code marker, where the claim would make `abc` one MATH segment. -/
theorem c5_counterexample :
    tokenize ("abc".data) = ["abc".data] ∧
    hasTestMatch ("abc".data) = false ∧
    renderMixedText none (JSVal.str "abc") = .ok "abc" :=
  ⟨rfl, rfl, rfl⟩

/-- C5 (amended): the tokenizer splits its input on exactly the fixed
set of math-indicating patterns — fraction macros, square-root macros,
backslash-escaped macro names (a backslash followed by a contiguous
alphabetic run), bare numeric fractions (with an optional decimal
part), and the single comparison/arithmetic symbols — every matched
pattern becoming one MATH segment (the classifier accepts it) and
every substring between matches one PLAIN segment (the classifier
rejects it), and the filter drops empty strings, so no zero-length
segment is ever emitted. -/
theorem c5_theorem (l : List Char) :
    (∀ p ∈ (splitGo l).1, hasTestMatch p.2 = true) ∧
    (∀ p ∈ (splitGo l).1, hasTestMatch p.1 = false) ∧
    hasTestMatch (splitGo l).2 = false ∧
    (∀ t ∈ tokenize l, t ≠ []) := by
  obtain ⟨hg1, hg2⟩ := splitGoF_gaps l.length l (le_refl _)
  refine ⟨fun p hp => splitGoF_toks l.length l p hp, hg1, hg2, ?_⟩
  intro t ht
  have hne := (List.mem_filter.mp ht).2
  cases t with
  | nil => simp at hne
  | cons a as => simp

theorem c5_witness :
    hasTestMatch (("=".data : List Char)) = true ∧
    hasTestMatch (("a".data : List Char)) = false :=
  ⟨(c5_theorem ("a=b".data)).1 ("a".data, "=".data) (by decide),
   (c5_theorem ("a=b".data)).2.1 ("a".data, "=".data) (by decide)⟩

end ExamPortal





